import Mathlib

/-!
Verification of the omnidirectional camera model of `src/ocam.cpp`
(namespace `omni_cam`).  The C++ double arithmetic is embedded as exact
real arithmetic; `Eigen` fixed-size vectors and matrices become tuples
and explicit-entry structures, and `Eigen`'s closed-form 2×2 inverse,
`norm()` and `normalize()` are spelled out.
-/

namespace OmniCam

noncomputable section

/-- 2×2 real matrix with explicit entries, standing in for `Eigen::Matrix2d`. -/
@[ext] structure Mat2 where
  m00 : ℝ
  m01 : ℝ
  m10 : ℝ
  m11 : ℝ

/-- Matrix–vector product of a `Mat2` with a 2-vector. -/
def Mat2.mulVec (M : Mat2) (v : ℝ × ℝ) : ℝ × ℝ :=
  (M.m00 * v.1 + M.m01 * v.2, M.m10 * v.1 + M.m11 * v.2)

/-- Matrix–matrix product of two `Mat2`. -/
def Mat2.mul (M N : Mat2) : Mat2 :=
  ⟨M.m00 * N.m00 + M.m01 * N.m10, M.m00 * N.m01 + M.m01 * N.m11,
   M.m10 * N.m00 + M.m11 * N.m10, M.m10 * N.m01 + M.m11 * N.m11⟩

/-- Determinant of a `Mat2`. -/
def Mat2.det (M : Mat2) : ℝ := M.m00 * M.m11 - M.m01 * M.m10

/-- Eigen's closed-form inverse of a 2×2 matrix (adjugate over determinant),
as applied by `affine_correction_.inverse()` in the `OCam` constructor. -/
def Mat2.inv (M : Mat2) : Mat2 :=
  ⟨M.m11 / M.det, -M.m01 / M.det, -M.m10 / M.det, M.m00 / M.det⟩

/-- The 2×2 identity matrix. -/
def Mat2.id : Mat2 := ⟨1, 0, 0, 1⟩

/-- 2×3 real matrix (`Eigen::Matrix<double, 2, 3>`), the Jacobian type of
`project3`. -/
@[ext] structure Mat23 where
  j00 : ℝ
  j01 : ℝ
  j02 : ℝ
  j10 : ℝ
  j11 : ℝ
  j12 : ℝ

/-- Left multiplication of a 2×3 matrix by a 2×2 matrix, as in
`affine_correction_ * (*out_jacobian_point)`. -/
def Mat2.mulMat23 (M : Mat2) (J : Mat23) : Mat23 :=
  ⟨M.m00 * J.j00 + M.m01 * J.j10, M.m00 * J.j01 + M.m01 * J.j11,
   M.m00 * J.j02 + M.m01 * J.j12,
   M.m10 * J.j00 + M.m11 * J.j10, M.m10 * J.j01 + M.m11 * J.j11,
   M.m10 * J.j02 + M.m11 * J.j12⟩

/-- Componentwise sum of two 2-vectors. -/
def vadd2 (a b : ℝ × ℝ) : ℝ × ℝ := (a.1 + b.1, a.2 + b.2)

/-- Componentwise difference of two 2-vectors. -/
def vsub2 (a b : ℝ × ℝ) : ℝ × ℝ := (a.1 - b.1, a.2 - b.2)

/-- Euclidean norm of a 3-vector (`Eigen`'s `.norm()`). -/
def norm3 (v : ℝ × ℝ × ℝ) : ℝ := Real.sqrt (v.1 ^ 2 + v.2.1 ^ 2 + v.2.2 ^ 2)

/-- `Eigen`'s `.normalize()` on a 3-vector: divide every component by the
Euclidean norm. -/
def normalize3 (v : ℝ × ℝ × ℝ) : ℝ × ℝ × ℝ :=
  (v.1 / norm3 v, v.2.1 / norm3 v, v.2.2 / norm3 v)

/-- `distortionToAffineCorrection` of `ocam.cpp`: the comma initializer
`result << 1.0, distortion(2), distortion(1), distortion(0)` fills the
matrix row-major, giving rows `[1, d2]` and `[d1, d0]`. -/
def distortionToAffineCorrection (distortion : ℝ × ℝ × ℝ) : Mat2 :=
  ⟨1, distortion.2.2, distortion.2.1, distortion.1⟩

/-- The camera model state (`class OCam`): all members set at construction
and never mutated. -/
structure OCam where
  image_size : ℤ × ℤ
  polynomial : Fin 5 → ℝ
  principal_point : ℝ × ℝ
  inverse_polynomial : Fin 12 → ℝ
  affine_correction : Mat2
  affine_correction_inverse : Mat2

/-- The `OCam` constructor: stores the parameters, derives
`affine_correction_` from the distortion triple and precomputes
`affine_correction_.inverse()`. -/
def OCam.ofParams (image_size : ℤ × ℤ) (polynomial : Fin 5 → ℝ)
    (principal_point : ℝ × ℝ) (distortion : ℝ × ℝ × ℝ)
    (inverse_polynomial : Fin 12 → ℝ) : OCam :=
  { image_size := image_size
    polynomial := polynomial
    principal_point := principal_point
    inverse_polynomial := inverse_polynomial
    affine_correction := distortionToAffineCorrection distortion
    affine_correction_inverse := (distortionToAffineCorrection distortion).inv }

/-- The pre-normalization bearing vector assembled by `OCam::backProject3`:
rectified keypoint in the first two slots, then the Horner evaluation of the
5-coefficient polynomial at `rho`, negated. -/
def OCam.backProject3Pre (cam : OCam) (keypoint : ℝ × ℝ) : ℝ × ℝ × ℝ :=
  let rectified := cam.affine_correction_inverse.mulVec
    (vsub2 keypoint cam.principal_point)
  let rho := Real.sqrt (rectified.1 ^ 2 + rectified.2 ^ 2)
  let z4 := cam.polynomial 4
  let z3 := cam.polynomial 3 + z4 * rho
  let z2 := cam.polynomial 2 + z3 * rho
  let z1 := cam.polynomial 1 + z2 * rho
  let z0 := cam.polynomial 0 + z1 * rho
  (rectified.1, rectified.2, -1 * z0)

/-- `OCam::backProject3`: the assembled vector, normalized in place. -/
def OCam.backProject3 (cam : OCam) (keypoint : ℝ × ℝ) : ℝ × ℝ × ℝ :=
  normalize3 (cam.backProject3Pre keypoint)

/-- `xy_norm` of `OCam::project3`. -/
def xyNorm (x y : ℝ) : ℝ := Real.sqrt (x ^ 2 + y ^ 2)

/-- The `theta_powers` loop of `OCam::project3`: `theta_powers[0] = 1`,
`theta_powers[i] = theta_powers[i-1] * theta`. -/
def thetaPowers (theta : ℝ) : ℕ → ℝ
  | 0 => 1
  | n + 1 => thetaPowers theta n * theta

/-- `rho = inverse_polynomial_.dot(theta_powers)` of `OCam::project3`. -/
def OCam.rho (cam : OCam) (theta : ℝ) : ℝ :=
  ∑ i : Fin 12, cam.inverse_polynomial i * thetaPowers theta i

/-- The `drho_dtheta` accumulation loop of `OCam::project3`.  The source
loop runs over `i = 1 .. 11`; the `i = 0` summand below is `0` because of
the factor `i`, so summing over all of `Fin 12` is the same value. -/
def OCam.drhoDtheta (cam : OCam) (theta : ℝ) : ℝ :=
  ∑ i : Fin 12, (i : ℕ) * cam.inverse_polynomial i * thetaPowers theta (i - 1)

/-- `dtheta_dx` of `OCam::project3` (taking the already sign-flipped `z`):
`(-1.0 * x * z_by_xy_norm) / xyz_norm_sqr`. -/
def dthetaDx (x y z : ℝ) : ℝ :=
  (-1 * x * (z / xyNorm x y)) / (x ^ 2 + y ^ 2 + z ^ 2)

/-- `dtheta_dy` of `OCam::project3`. -/
def dthetaDy (x y z : ℝ) : ℝ :=
  (-1 * y * (z / xyNorm x y)) / (x ^ 2 + y ^ 2 + z ^ 2)

/-- `dtheta_dz` of `OCam::project3`: `xy_norm / xyz_norm_sqr`. -/
def dthetaDz (x y z : ℝ) : ℝ :=
  xyNorm x y / (x ^ 2 + y ^ 2 + z ^ 2)

/-- `OCam::project3`.  The source writes the Jacobian only when requested;
the embedding always returns the pair (keypoint, Jacobian), the keypoint
computation being unaffected by the flag. -/
def OCam.project3 (cam : OCam) (p : ℝ × ℝ × ℝ) : (ℝ × ℝ) × Mat23 :=
  let x := p.1
  let y := p.2.1
  let z := -p.2.2
  let xy_norm := xyNorm x y
  let theta := Real.arctan (z / xy_norm)
  let rho := cam.rho theta
  let raw_uv : ℝ × ℝ := (x / xy_norm * rho, y / xy_norm * rho)
  let keypoint := vadd2 (cam.affine_correction.mulVec raw_uv) cam.principal_point
  let drho_dx := cam.drhoDtheta theta * dthetaDx x y z
  let drho_dy := cam.drhoDtheta theta * dthetaDy x y z
  let drho_dz := cam.drhoDtheta theta * dthetaDz x y z
  let xy_sqr := x ^ 2 + y ^ 2
  let duraw_dx := (xy_norm - x * x / xy_norm) / xy_sqr * rho + drho_dx * x / xy_norm
  let duraw_dy := (-1 * x * y / xy_norm) / xy_sqr * rho + drho_dy * x / xy_norm
  let duraw_dz := drho_dz * x / xy_norm
  let dvraw_dx := (-1 * x * y / xy_norm) / xy_sqr * rho + drho_dx * y / xy_norm
  let dvraw_dy := (xy_norm - y * y / xy_norm) / xy_sqr * rho + drho_dy * y / xy_norm
  let dvraw_dz := drho_dz * y / xy_norm
  let jac_raw : Mat23 :=
    ⟨duraw_dx, duraw_dy, -duraw_dz, dvraw_dx, dvraw_dy, -dvraw_dz⟩
  (keypoint, cam.affine_correction.mulMat23 jac_raw)

/-- `OCam::getIntrinsicParameters`: the 5 polynomial coefficients followed
by the principal point. -/
def OCam.getIntrinsicParameters (cam : OCam) : List ℝ :=
  [cam.polynomial 0, cam.polynomial 1, cam.polynomial 2, cam.polynomial 3,
   cam.polynomial 4, cam.principal_point.1, cam.principal_point.2]

/-- `OCam::getDistortionParameters`: the affine-correction entries in order
(0,0), (0,1), (1,0), (1,1). -/
def OCam.getDistortionParameters (cam : OCam) : List ℝ :=
  [cam.affine_correction.m00, cam.affine_correction.m01,
   cam.affine_correction.m10, cam.affine_correction.m11]

/-- Spec-side keypoint formula for claim C1, written exactly as the claim
states it: `theta = atan(-z / xyNorm)`, `rho = Σ_{i<12} invPoly[i]·theta^i`,
`keypoint = affineCorrection * (x/xyNorm·rho, y/xyNorm·rho) + principalPoint`. -/
def OCam.keypointSpec (cam : OCam) (p : ℝ × ℝ × ℝ) : ℝ × ℝ :=
  let theta := Real.arctan (-p.2.2 / xyNorm p.1 p.2.1)
  let rho := ∑ i : Fin 12, cam.inverse_polynomial i * theta ^ (i : ℕ)
  vadd2 (cam.affine_correction.mulVec
    (p.1 / xyNorm p.1 p.2.1 * rho, p.2.1 / xyNorm p.1 p.2.1 * rho))
    cam.principal_point

/-- Spec-side back-projection formula for claim C2, written exactly as the
claim states it: rectify, take the Euclidean norm `rho`, evaluate the
5-term polynomial written out as a sum, negate, normalize. -/
def OCam.backProjectSpec (cam : OCam) (keypoint : ℝ × ℝ) : ℝ × ℝ × ℝ :=
  let rectified := cam.affine_correction_inverse.mulVec
    (vsub2 keypoint cam.principal_point)
  let rho := Real.sqrt (rectified.1 ^ 2 + rectified.2 ^ 2)
  let zRaw := -(cam.polynomial 0 + cam.polynomial 1 * rho +
    cam.polynomial 2 * rho ^ 2 + cam.polynomial 3 * rho ^ 3 +
    cam.polynomial 4 * rho ^ 4)
  normalize3 (rectified.1, rectified.2, zRaw)

/-- The 5-term radial polynomial `p₀ + p₁·ρ + p₂·ρ² + p₃·ρ³ + p₄·ρ⁴`
that `backProject3` evaluates by Horner's method. -/
def OCam.polyEval (cam : OCam) (rho : ℝ) : ℝ :=
  cam.polynomial 0 + cam.polynomial 1 * rho + cam.polynomial 2 * rho ^ 2 +
    cam.polynomial 3 * rho ^ 3 + cam.polynomial 4 * rho ^ 4

/-- First-coordinate projection of `ℝ × ℝ × ℝ` as a continuous linear map. -/
def px : ℝ × ℝ × ℝ →L[ℝ] ℝ := ContinuousLinearMap.fst ℝ ℝ (ℝ × ℝ)

/-- Second-coordinate projection of `ℝ × ℝ × ℝ` as a continuous linear map. -/
def py : ℝ × ℝ × ℝ →L[ℝ] ℝ :=
  (ContinuousLinearMap.fst ℝ ℝ ℝ).comp (ContinuousLinearMap.snd ℝ ℝ (ℝ × ℝ))

/-- Third-coordinate projection of `ℝ × ℝ × ℝ` as a continuous linear map. -/
def pz : ℝ × ℝ × ℝ →L[ℝ] ℝ :=
  (ContinuousLinearMap.snd ℝ ℝ ℝ).comp (ContinuousLinearMap.snd ℝ ℝ (ℝ × ℝ))

/-- The linear functional on `ℝ × ℝ × ℝ` with coefficient row `(a, b, c)`. -/
def lin3 (a b c : ℝ) : ℝ × ℝ × ℝ →L[ℝ] ℝ := a • px + b • py + c • pz

/-- A 2×3 matrix as the continuous linear map `ℝ³ → ℝ²` it represents. -/
def Mat23.toCLM (J : Mat23) : ℝ × ℝ × ℝ →L[ℝ] ℝ × ℝ :=
  (lin3 J.j00 J.j01 J.j02).prod (lin3 J.j10 J.j11 J.j12)

/-- A sample camera with zero polynomial, identity affine correction
(distortion `(1,0,0)`), principal point at the origin and inverse
polynomial `(1,0,…,0)`. -/
def sampleCam : OCam :=
  OCam.ofParams (640, 480) (fun _ => 0) (0, 0) (1, 0, 0)
    (fun i => if i = 0 then 1 else 0)

/-- A sample camera whose 5-term polynomial is the constant `1`, which is
not the functional inverse of its angle-to-radius polynomial. -/
def sampleCamBad : OCam :=
  OCam.ofParams (640, 480) (fun i => if i = 0 then 1 else 0) (0, 0) (1, 0, 0)
    (fun i => if i = 0 then 1 else 0)

end

/-!
### Parameter loading (`OCam::loadOCam`)

The file content is modeled as a character list; `std::istream`
whitespace-skipping extraction is modeled token by token: skipping
whitespace, taking the maximal non-whitespace run, setting `eofbit` when
extraction consumes the last character of the input and `failbit` when no
token can be produced or the token is not numeric.  Values are parsed
into exact rationals (the file's decimal literals, embedded exactly).
`CHECK` failure — fatal process termination in the source — is modeled
as an `Except.error` carrying the check's message.
-/

/-- Whitespace skipped by `operator>>`. -/
def isWs (c : Char) : Bool := c == ' ' || c == '\n' || c == '\t' || c == '\r'

/-- Numeric value of a decimal digit character. -/
def digToNat (c : Char) : ℕ := c.toNat - '0'.toNat

/-- Value of a string of decimal digits. -/
def digitsToNat (l : List Char) : ℕ :=
  l.foldl (fun acc c => 10 * acc + digToNat c) 0

/-- Parse a nonempty all-digit character list as a natural number. -/
def parseNat (l : List Char) : Option ℕ :=
  if l ≠ [] ∧ l.all Char.isDigit then some (digitsToNat l) else none

/-- Parse an unsigned decimal literal (`digits` or `digits.digits`) as an
exact rational: `intpart.fracpart` has the value
`(intpart·10^k + fracpart) / 10^k` with `k` the fraction length. -/
def parseUnsignedRat (l : List Char) : Option ℚ :=
  let intPart := l.takeWhile (fun c => c != '.')
  let rest := l.dropWhile (fun c => c != '.')
  match parseNat intPart with
  | none => none
  | some n =>
    match rest with
    | [] => some (mkRat n 1)
    | _ :: frac =>
      if frac.all Char.isDigit then
        some (mkRat (n * 10 ^ frac.length + digitsToNat frac) (10 ^ frac.length))
      else none

/-- Parse an optionally negated decimal literal. -/
def parseRat (l : List Char) : Option ℚ :=
  match l with
  | '-' :: rest => (parseUnsignedRat rest).map (fun q => -q)
  | _ => parseUnsignedRat l

/-- Parse an optionally negated integer literal. -/
def parseIntTok (l : List Char) : Option ℤ :=
  match l with
  | '-' :: rest => (parseNat rest).map (fun n => -(n : ℤ))
  | _ => (parseNat l).map (fun n => (n : ℤ))

/-- The modeled `std::ifstream` state: remaining input and the
`eofbit`/`failbit` flags. -/
structure IStream where
  rest : List Char
  eofbit : Bool
  failbit : Bool
  deriving DecidableEq

/-- `std::ios::good()`: no `eofbit` and no `failbit`. -/
def IStream.good (s : IStream) : Bool := !s.eofbit && !s.failbit

/-- One whitespace-delimited token extraction.  Extraction on a stream
that is not good fails immediately; reaching the end of input while
skipping whitespace sets `eofbit` and `failbit`; consuming the final
input character as part of a token sets `eofbit` only. -/
def nextToken (s : IStream) : Option (List Char) × IStream :=
  if s.eofbit || s.failbit then (none, { s with failbit := true })
  else
    let r := s.rest.dropWhile isWs
    if r.isEmpty then (none, ⟨[], true, true⟩)
    else
      let tok := r.takeWhile (fun c => !isWs c)
      let rem := r.dropWhile (fun c => !isWs c)
      (some tok, ⟨rem, rem.isEmpty, false⟩)

/-- `param_fs >> (double&)`: extract a token and parse it as a rational;
a malformed token sets `failbit` and stores `0` (C++11 stores `0` on
failed numeric extraction). -/
def readRat (s : IStream) : ℚ × IStream :=
  match nextToken s with
  | (none, s') => (0, s')
  | (some tok, s') =>
    match parseRat tok with
    | some q => (q, s')
    | none => (0, { s' with failbit := true })

/-- `param_fs >> (int&)`: extract a token and parse it as an integer. -/
def readInt (s : IStream) : ℤ × IStream :=
  match nextToken s with
  | (none, s') => (0, s')
  | (some tok, s') =>
    match parseIntTok tok with
    | some n => (n, s')
    | none => (0, { s' with failbit := true })

/-- The raw parameter bundle read by `OCam::loadOCam` before the `OCam`
constructor runs, with exact rational values. -/
structure RawParams where
  width : ℤ
  height : ℤ
  poly : List ℚ
  principalPoint : ℚ × ℚ
  distortion : ℚ × ℚ × ℚ
  invPoly : List ℚ
  deriving DecidableEq

/-- The reading phase of `OCam::loadOCam`: 2 integers, 5 reals, 2 reals,
3 reals, 12 reals, with a `CHECK(param_fs.good())` after each group
(modeled as an `Except.error` with the source's message). -/
def parseParams (content : List Char) : Except String RawParams :=
  let s0 : IStream := ⟨content, false, false⟩
  let (w, a1) := readInt s0
  let (h, a2) := readInt a1
  if !a2.good then .error "Reading image size fails." else
  let (p0, b1) := readRat a2
  let (p1, b2) := readRat b1
  let (p2, b3) := readRat b2
  let (p3, b4) := readRat b3
  let (p4, b5) := readRat b4
  if !b5.good then .error "Reading polynomial fails." else
  let (c0, d1) := readRat b5
  let (c1, d2) := readRat d1
  if !d2.good then .error "Reading principle point fails." else
  let (e0, f1) := readRat d2
  let (e1, f2) := readRat f1
  let (e2, f3) := readRat f2
  if !f3.good then .error "Reading distortion fails." else
  let (i0, g1) := readRat f3
  let (i1, g2) := readRat g1
  let (i2, g3) := readRat g2
  let (i3, g4) := readRat g3
  let (i4, g5) := readRat g4
  let (i5, g6) := readRat g5
  let (i6, g7) := readRat g6
  let (i7, g8) := readRat g7
  let (i8, g9) := readRat g8
  let (i9, g10) := readRat g9
  let (i10, g11) := readRat g10
  let (i11, g12) := readRat g11
  if !g12.good then .error "Reading inverse polynomial fails." else
  .ok ⟨w, h, [p0, p1, p2, p3, p4], (c0, c1), (e0, e1, e2),
    [i0, i1, i2, i3, i4, i5, i6, i7, i8, i9, i10, i11]⟩

/-- Construct the `OCam` from a parsed bundle, embedding the exact
rational file values into the real-valued model. -/
noncomputable def RawParams.toOCam (r : RawParams) : OCam :=
  OCam.ofParams (r.width, r.height)
    (fun i => ((r.poly.getD i 0 : ℚ) : ℝ))
    (((r.principalPoint.1 : ℚ) : ℝ), ((r.principalPoint.2 : ℚ) : ℝ))
    (((r.distortion.1 : ℚ) : ℝ), ((r.distortion.2.1 : ℚ) : ℝ),
      ((r.distortion.2.2 : ℚ) : ℝ))
    (fun i => ((r.invPoly.getD i 0 : ℚ) : ℝ))

/-- `OCam::loadOCam` on already-opened file content: read all parameter
groups, then construct the model. -/
noncomputable def loadOCamFromChars (content : List Char) : Except String OCam :=
  (parseParams content).map RawParams.toOCam

/-- The parameter-file content of the loader scenario of the spec,
with its trailing newline. -/
def c9text : String :=
  "640 480\n-100.0 0.0 0.001 0.0 0.0\n320.0 240.0\n1.0 0.0 0.0\n0.0 1.0 0.0 0.0 0.0 0.0 0.0 0.0 0.0 0.0 0.0 0.0\n"

/-- The same 24 tokens with no trailing whitespace after the last one. -/
def c10text : String :=
  "640 480\n-100.0 0.0 0.001 0.0 0.0\n320.0 240.0\n1.0 0.0 0.0\n0.0 1.0 0.0 0.0 0.0 0.0 0.0 0.0 0.0 0.0 0.0 0.0"

/-- The bundle that `parseParams` extracts from `c9text`. -/
def c9bundle : RawParams :=
  ⟨640, 480, [-100, 0, mkRat 1 1000, 0, 0], (320, 240), (1, 0, 0),
    [0, 1, 0, 0, 0, 0, 0, 0, 0, 0, 0, 0]⟩

deriving instance DecidableEq for Except

noncomputable section

/-- The powers loop computes exactly the monomial powers. -/
theorem thetaPowers_eq_pow (theta : ℝ) (n : ℕ) : thetaPowers theta n = theta ^ n := by
  induction n with
  | zero => simp [thetaPowers]
  | succ k ih => simp [thetaPowers, ih, pow_succ]

/-- C1: for every 3D point with `xyNorm = sqrt(x²+y²) > 0`, `project3`
returns the keypoint
`affineCorrection * (x/xyNorm·rho, y/xyNorm·rho) + principalPoint`
with `theta = atan(-z/xyNorm)` and `rho = Σ_{i=0}^{11} invPoly[i]·theta^i`. -/
theorem project3_keypoint_eq_spec (cam : OCam) (p : ℝ × ℝ × ℝ)
    (h : 0 < xyNorm p.1 p.2.1) :
    (cam.project3 p).1 = cam.keypointSpec p := by
  simp only [OCam.project3, OCam.keypointSpec, OCam.rho, thetaPowers_eq_pow, neg_div]

/-- Witness for C1 at the point `(1, 0, 0)` on `sampleCam`. -/
theorem project3_keypoint_eq_spec_witness :
    0 < xyNorm 1 0 ∧
      (sampleCam.project3 (1, 0, 0)).1 = sampleCam.keypointSpec (1, 0, 0) := by
  have h : 0 < xyNorm 1 0 := by
    rw [xyNorm, show ((1 : ℝ) ^ 2 + 0 ^ 2) = 1 by norm_num, Real.sqrt_one]
    norm_num
  exact ⟨h, project3_keypoint_eq_spec sampleCam (1, 0, 0) h⟩

/-- C2: `backProject3` returns the normalization of
`(rectified.x, rectified.y, zRaw)` where
`rectified = affineCorrectionInverse * (keypoint - principalPoint)`,
`rho = ‖rectified‖` and
`zRaw = -(p₀ + p₁·rho + p₂·rho² + p₃·rho³ + p₄·rho⁴)`, the Horner
evaluation from `poly[4]` down to `poly[0]` being that polynomial. -/
theorem backProject3_eq_spec (cam : OCam) (kp : ℝ × ℝ) :
    cam.backProject3 kp = cam.backProjectSpec kp := by
  simp only [OCam.backProject3, OCam.backProject3Pre, OCam.backProjectSpec]
  congr 1
  simp only [Prod.mk.injEq]
  exact ⟨trivial, trivial, by ring⟩

/-- C4: construction from a distortion triple `(d0,d1,d2)` yields the
affine-correction matrix with rows `[1, d2]` and `[d1, d0]`, and
`getDistortionParameters` returns its entries in order
(0,0), (0,1), (1,0), (1,1), i.e. `[1, d2, d1, d0]`. -/
theorem ofParams_affineCorrection_distortionParameters
    (sz : ℤ × ℤ) (poly : Fin 5 → ℝ) (pp : ℝ × ℝ) (d0 d1 d2 : ℝ)
    (ip : Fin 12 → ℝ) :
    (OCam.ofParams sz poly pp (d0, d1, d2) ip).affine_correction =
        ⟨1, d2, d1, d0⟩ ∧
      (OCam.ofParams sz poly pp (d0, d1, d2) ip).getDistortionParameters =
        [1, d2, d1, d0] :=
  ⟨rfl, rfl⟩

/-- Normalizing a nonzero 3-vector yields a vector of Euclidean norm 1. -/
theorem normalize3_norm (v : ℝ × ℝ × ℝ) (hv : v ≠ (0, 0, 0)) :
    norm3 (normalize3 v) = 1 := by
  obtain ⟨a, b, c⟩ := v
  have hs0 : 0 ≤ a ^ 2 + b ^ 2 + c ^ 2 := by positivity
  have hsne : a ^ 2 + b ^ 2 + c ^ 2 ≠ 0 := by
    intro h0
    refine hv ?_
    have ha : a ^ 2 = 0 :=
      le_antisymm (by nlinarith [sq_nonneg b, sq_nonneg c]) (sq_nonneg a)
    have hb : b ^ 2 = 0 :=
      le_antisymm (by nlinarith [sq_nonneg a, sq_nonneg c]) (sq_nonneg b)
    have hc : c ^ 2 = 0 :=
      le_antisymm (by nlinarith [sq_nonneg a, sq_nonneg b]) (sq_nonneg c)
    simp only [Prod.mk.injEq]
    exact ⟨pow_eq_zero_iff (two_ne_zero) |>.mp ha,
      pow_eq_zero_iff (two_ne_zero) |>.mp hb,
      pow_eq_zero_iff (two_ne_zero) |>.mp hc⟩
  have hnpos : 0 < norm3 (a, b, c) :=
    Real.sqrt_pos.mpr (lt_of_le_of_ne hs0 (Ne.symm hsne))
  have hnne : norm3 (a, b, c) ≠ 0 := ne_of_gt hnpos
  have hn2 : norm3 (a, b, c) ^ 2 = a ^ 2 + b ^ 2 + c ^ 2 := Real.sq_sqrt hs0
  have key : (a / norm3 (a, b, c)) ^ 2 + (b / norm3 (a, b, c)) ^ 2 +
      (c / norm3 (a, b, c)) ^ 2 = 1 := by
    field_simp
    linarith [hn2]
  simp only [normalize3, norm3] at key ⊢
  rw [key, Real.sqrt_one]

/-- C7: when the pre-normalization vector assembled by `backProject3` is
nonzero, the returned bearing vector has Euclidean norm exactly 1. -/
theorem backProject3_unit_norm (cam : OCam) (kp : ℝ × ℝ)
    (h : cam.backProject3Pre kp ≠ (0, 0, 0)) :
    norm3 (cam.backProject3 kp) = 1 := by
  rw [OCam.backProject3]
  exact normalize3_norm _ h

/-- Witness for C7 at the keypoint `(1, 0)` on `sampleCam`. -/
theorem backProject3_unit_norm_witness :
    sampleCam.backProject3Pre (1, 0) ≠ (0, 0, 0) ∧
      norm3 (sampleCam.backProject3 (1, 0)) = 1 := by
  have h : sampleCam.backProject3Pre (1, 0) ≠ (0, 0, 0) := by
    norm_num [OCam.backProject3Pre, sampleCam, OCam.ofParams,
      distortionToAffineCorrection, Mat2.inv, Mat2.det, Mat2.mulVec, vsub2,
      Prod.mk.injEq]
  exact ⟨h, backProject3_unit_norm sampleCam (1, 0) h⟩

/-- C8: for every distortion triple with `1·d0 - d2·d1 ≠ 0`, the
constructed model satisfies
`affineCorrection * affineCorrectionInverse = identity`.  The embedding
has no mutation: every operation is a pure function of the constructed
record, so the invariant persists for the model's lifetime. -/
theorem affine_mul_inverse_eq_id (sz : ℤ × ℤ) (poly : Fin 5 → ℝ)
    (pp : ℝ × ℝ) (d0 d1 d2 : ℝ) (ip : Fin 12 → ℝ)
    (h : 1 * d0 - d2 * d1 ≠ 0) :
    (OCam.ofParams sz poly pp (d0, d1, d2) ip).affine_correction.mul
        (OCam.ofParams sz poly pp (d0, d1, d2) ip).affine_correction_inverse =
      Mat2.id := by
  have h' : d0 - d2 * d1 ≠ 0 := by rwa [one_mul] at h
  simp only [OCam.ofParams, distortionToAffineCorrection, Mat2.mul, Mat2.inv,
    Mat2.det, Mat2.id, one_mul]
  ext
  all_goals field_simp [h']
  all_goals ring

/-- Witness for C8 with the distortion triple `(1, 0, 0)`. -/
theorem affine_mul_inverse_eq_id_witness :
    (1 : ℝ) * 1 - 0 * 0 ≠ 0 ∧
      (OCam.ofParams (640, 480) (fun _ => 0) (0, 0) (1, 0, 0)
          (fun _ => 0)).affine_correction.mul
        (OCam.ofParams (640, 480) (fun _ => 0) (0, 0) (1, 0, 0)
          (fun _ => 0)).affine_correction_inverse = Mat2.id := by
  have h : (1 : ℝ) * 1 - 0 * 0 ≠ 0 := by norm_num
  exact ⟨h, affine_mul_inverse_eq_id (640, 480) (fun _ => 0) (0, 0) 1 0 0
    (fun _ => 0) h⟩

/-- C5 counterexample: at `(x, y, z') = (2, 0, 1)` the `dtheta_dx`
computed by the code is `(-2·(1/2))/5 = -1/5`, not the claimed
`-x·z'/xyzNormSqr = -2/5`. -/
theorem dthetaDx_claim_counterexample :
    dthetaDx 2 0 1 ≠ -(2 * 1) / (2 ^ 2 + 0 ^ 2 + 1 ^ 2) := by
  have hs : xyNorm 2 0 = 2 := by
    rw [xyNorm, show ((2 : ℝ) ^ 2 + 0 ^ 2) = 2 ^ 2 by norm_num,
      Real.sqrt_sq (by norm_num : (0 : ℝ) ≤ 2)]
  rw [dthetaDx, hs]
  norm_num

/-- C5 amended: for inputs with `xyNorm > 0` (indeed for all inputs) the
partial derivatives of `theta` used by `project3` are
`∂θ/∂x = -x·z'/(xyNorm·xyzNormSqr)`, `∂θ/∂y = -y·z'/(xyNorm·xyzNormSqr)`
and `∂θ/∂z' = xyNorm/xyzNormSqr`, with `xyzNormSqr = x²+y²+z'²`. -/
theorem dtheta_formulas (x y z : ℝ) (h : 0 < xyNorm x y) :
    dthetaDx x y z = -(x * z) / (xyNorm x y * (x ^ 2 + y ^ 2 + z ^ 2)) ∧
      dthetaDy x y z = -(y * z) / (xyNorm x y * (x ^ 2 + y ^ 2 + z ^ 2)) ∧
      dthetaDz x y z = xyNorm x y / (x ^ 2 + y ^ 2 + z ^ 2) := by
  refine ⟨?_, ?_, rfl⟩
  · rw [dthetaDx, ← mul_div_assoc, div_div]
    ring_nf
  · rw [dthetaDy, ← mul_div_assoc, div_div]
    ring_nf

/-- C9: loading the literal five-line parameter file (image size,
polynomial, principal point, distortion, inverse polynomial, with a
trailing newline) succeeds, and the resulting model reports intrinsic
parameters `[-100, 0, 0.001, 0, 0, 320, 240]` and distortion parameters
`[1, 0, 0, 1]`. -/
theorem loadOCam_scenario :
    loadOCamFromChars c9text.toList = Except.ok c9bundle.toOCam ∧
      c9bundle.toOCam.getIntrinsicParameters =
        [-100, 0, 0.001, 0, 0, 320, 240] ∧
      c9bundle.toOCam.getDistortionParameters = [1, 0, 0, 1] := by
  refine ⟨?_, ?_, ?_⟩
  · have hp : parseParams c9text.toList = Except.ok c9bundle := by decide
    rw [loadOCamFromChars, hp, Except.map]
  · simp only [RawParams.toOCam, OCam.ofParams, OCam.getIntrinsicParameters,
      c9bundle, List.getD]
    norm_num [Rat.mkRat_eq_div, show ((3 : Fin 5) : ℕ) = 3 from rfl,
      show ((4 : Fin 5) : ℕ) = 4 from rfl]
  · simp only [RawParams.toOCam, OCam.ofParams, OCam.getDistortionParameters,
      distortionToAffineCorrection, c9bundle]
    norm_num

/-- C10: on the same 24 tokens with no trailing whitespace, the final
token extraction reaches end-of-file, the stream is no longer good, and
the final `CHECK(param_fs.good())` fails (fatal), so no model is
returned — even though every numeric value was read correctly. -/
theorem loadOCam_eof_check_fails :
    loadOCamFromChars c10text.toList =
      Except.error "Reading inverse polynomial fails." := by
  have hp : parseParams c10text.toList =
      Except.error "Reading inverse polynomial fails." := by decide
  rw [loadOCamFromChars, hp, Except.map]

/-- Witness for the amended C5 at `(x, y, z') = (2, 0, 1)`. -/
theorem dtheta_formulas_witness :
    0 < xyNorm 2 0 ∧
      (dthetaDx 2 0 1 = -(2 * 1) / (xyNorm 2 0 * (2 ^ 2 + 0 ^ 2 + 1 ^ 2)) ∧
        dthetaDy 2 0 1 = -(0 * 1) / (xyNorm 2 0 * (2 ^ 2 + 0 ^ 2 + 1 ^ 2)) ∧
        dthetaDz 2 0 1 = xyNorm 2 0 / (2 ^ 2 + 0 ^ 2 + 1 ^ 2)) := by
  have h : 0 < xyNorm 2 0 := by
    rw [xyNorm, show ((2 : ℝ) ^ 2 + 0 ^ 2) = 2 ^ 2 by norm_num,
      Real.sqrt_sq (by norm_num : (0 : ℝ) ≤ 2)]
    norm_num
  exact ⟨h, dtheta_formulas 2 0 1 h⟩

/-- Matrix–matrix and matrix–vector products are compatible. -/
theorem Mat2.mul_mulVec (M N : Mat2) (v : ℝ × ℝ) :
    (M.mul N).mulVec v = M.mulVec (N.mulVec v) := by
  simp only [Mat2.mul, Mat2.mulVec, Prod.mk.injEq]
  constructor <;> ring

/-- The identity matrix acts trivially on 2-vectors. -/
theorem Mat2.id_mulVec (v : ℝ × ℝ) : Mat2.id.mulVec v = v := by
  simp [Mat2.id, Mat2.mulVec]

/-- Adding and subtracting the same 2-vector cancels. -/
theorem vsub2_vadd2 (a b : ℝ × ℝ) : vsub2 (vadd2 a b) b = a := by
  simp [vadd2, vsub2]

/-- C6 counterexample: for `sampleCamBad` — whose 5-term polynomial is
not the functional inverse of its 12-term polynomial, which nothing in
the code enforces — and the off-axis, positive-depth point `(1, 0, 1)`,
the round-tripped bearing vector has third component `-1/√2` but first
component `1/√2`; any positive multiple of `(1, 0, 1)` has equal first
and third components, so the result is not parallel to the input. -/
theorem roundtrip_counterexample :
    (sampleCamBad.backProject3 ((sampleCamBad.project3 (1, 0, 1)).1)).2.2 ≠
      (sampleCamBad.backProject3 ((sampleCamBad.project3 (1, 0, 1)).1)).1 := by
  have hxy : xyNorm 1 0 = 1 := by
    rw [xyNorm, show ((1 : ℝ) ^ 2 + 0 ^ 2) = 1 by norm_num, Real.sqrt_one]
  have hrho1 : sampleCamBad.rho (Real.arctan (-1 / xyNorm 1 0)) = 1 := by
    simp [OCam.rho, sampleCamBad, OCam.ofParams, ite_mul, Finset.sum_ite_eq',
      thetaPowers]
  have hkp : (sampleCamBad.project3 (1, 0, 1)).1 = (1, 0) := by
    have hkey : (sampleCamBad.project3 (1, 0, 1)).1 =
        vadd2 (sampleCamBad.affine_correction.mulVec
          (1 / xyNorm 1 0 * sampleCamBad.rho (Real.arctan (-1 / xyNorm 1 0)),
            0 / xyNorm 1 0 * sampleCamBad.rho (Real.arctan (-1 / xyNorm 1 0))))
          sampleCamBad.principal_point := rfl
    rw [hkey, hrho1, hxy]
    norm_num [sampleCamBad, OCam.ofParams, distortionToAffineCorrection,
      Mat2.mulVec, vadd2]
  have hrect : sampleCamBad.affine_correction_inverse.mulVec
      (vsub2 (1, 0) sampleCamBad.principal_point) = (1, 0) := by
    norm_num [sampleCamBad, OCam.ofParams, distortionToAffineCorrection,
      Mat2.inv, Mat2.det, Mat2.mulVec, vsub2]
  have hpre : sampleCamBad.backProject3Pre (1, 0) = (1, 0, -1) := by
    simp only [OCam.backProject3Pre, hrect]
    norm_num [sampleCamBad, OCam.ofParams,
      show ¬((4 : Fin 5) = 0) by decide, show ¬((3 : Fin 5) = 0) by decide,
      show ¬((2 : Fin 5) = 0) by decide, show ¬((1 : Fin 5) = 0) by decide,
      show Real.sqrt ((1 : ℝ) ^ 2 + 0 ^ 2) = 1 by
        rw [show ((1 : ℝ) ^ 2 + 0 ^ 2) = 1 by norm_num, Real.sqrt_one]]
  have hn : norm3 (1, 0, -1) = Real.sqrt 2 := by
    rw [norm3]
    norm_num
  have hback : sampleCamBad.backProject3 (1, 0) =
      (1 / Real.sqrt 2, 0 / Real.sqrt 2, -1 / Real.sqrt 2) := by
    rw [OCam.backProject3, hpre]
    show ((1 : ℝ) / norm3 (1, 0, -1), (0 : ℝ) / norm3 (1, 0, -1),
      (-1 : ℝ) / norm3 (1, 0, -1)) = _
    rw [hn]
  rw [hkp, hback]
  have h2 : 0 < Real.sqrt 2 := Real.sqrt_pos.mpr (by norm_num)
  show (-1 : ℝ) / Real.sqrt 2 ≠ 1 / Real.sqrt 2
  exact ne_of_lt ((div_lt_div_iff_of_pos_right h2).mpr (by norm_num))

/-- C6 amended: round-trip consistency holds for points off the optical
axis exactly when the model is calibrated consistently there: whenever
the precomputed `affineCorrectionInverse` really inverts
`affineCorrection`, the forward radius `rho` at the point is positive,
and the two polynomials are mutually consistent at the point
(`polyEval rho = rho · (-z/xyNorm)`, `-z/xyNorm` being `tan theta`),
`backProject3 (project3 p)` is exactly the unit vector `p / ‖p‖`. -/
theorem roundtrip_parallel (cam : OCam) (x y w : ℝ)
    (hA : cam.affine_correction_inverse.mul cam.affine_correction = Mat2.id)
    (hr : 0 < xyNorm x y)
    (hrho : 0 < cam.rho (Real.arctan (-w / xyNorm x y)))
    (hcons : cam.polyEval (cam.rho (Real.arctan (-w / xyNorm x y))) =
      cam.rho (Real.arctan (-w / xyNorm x y)) * (-w / xyNorm x y)) :
    cam.backProject3 ((cam.project3 (x, y, w)).1) =
      (x / norm3 (x, y, w), y / norm3 (x, y, w), w / norm3 (x, y, w)) := by
  have hs0 : (0 : ℝ) ≤ x ^ 2 + y ^ 2 := by positivity
  have hkey : (cam.project3 (x, y, w)).1 =
      vadd2 (cam.affine_correction.mulVec
        (x / xyNorm x y * cam.rho (Real.arctan (-w / xyNorm x y)),
          y / xyNorm x y * cam.rho (Real.arctan (-w / xyNorm x y))))
        cam.principal_point := rfl
  set r := xyNorm x y with hrdef
  set ρ := cam.rho (Real.arctan (-w / r)) with hρdef
  have hx2y2 : 0 < x ^ 2 + y ^ 2 := by
    rcases eq_or_lt_of_le hs0 with h | h
    · exfalso
      rw [hrdef, xyNorm, ← h, Real.sqrt_zero] at hr
      exact lt_irrefl 0 hr
    · exact h
  have hrne : r ≠ 0 := ne_of_gt hr
  have hρne : ρ ≠ 0 := ne_of_gt hrho
  have hr2 : r ^ 2 = x ^ 2 + y ^ 2 := by
    rw [hrdef, xyNorm]
    exact Real.sq_sqrt hs0
  have hrect : cam.affine_correction_inverse.mulVec
      (vsub2 ((cam.project3 (x, y, w)).1) cam.principal_point) =
      (x / r * ρ, y / r * ρ) := by
    rw [hkey, vsub2_vadd2, ← Mat2.mul_mulVec, hA, Mat2.id_mulVec]
  have hrho_b : Real.sqrt ((x / r * ρ) ^ 2 + (y / r * ρ) ^ 2) = ρ := by
    have harg : (x / r * ρ) ^ 2 + (y / r * ρ) ^ 2 = ρ ^ 2 := by
      have h1 : (x / r * ρ) ^ 2 + (y / r * ρ) ^ 2 =
          (x ^ 2 + y ^ 2) / r ^ 2 * ρ ^ 2 := by ring
      rw [h1, ← hr2, div_self (pow_ne_zero 2 hrne), one_mul]
    rw [harg, Real.sqrt_sq hrho.le]
  have hpre : cam.backProject3Pre ((cam.project3 (x, y, w)).1) =
      (x / r * ρ, y / r * ρ, ρ * w / r) := by
    simp only [OCam.backProject3Pre, hrect, hrho_b]
    simp only [Prod.mk.injEq]
    refine ⟨trivial, trivial, ?_⟩
    have hEval : cam.polynomial 0 + (cam.polynomial 1 + (cam.polynomial 2 +
        (cam.polynomial 3 + cam.polynomial 4 * ρ) * ρ) * ρ) * ρ =
        cam.polyEval ρ := by
      rw [OCam.polyEval]
      ring
    rw [hEval, hcons]
    ring
  have hnpos : 0 < norm3 (x, y, w) := by
    rw [norm3]
    apply Real.sqrt_pos.mpr
    nlinarith [sq_nonneg w]
  have hnne : norm3 (x, y, w) ≠ 0 := ne_of_gt hnpos
  have hn3 : norm3 (x / r * ρ, y / r * ρ, ρ * w / r) =
      ρ / r * norm3 (x, y, w) := by
    rw [norm3, norm3]
    have harg : (x / r * ρ) ^ 2 + (y / r * ρ) ^ 2 + (ρ * w / r) ^ 2 =
        (ρ / r) ^ 2 * (x ^ 2 + y ^ 2 + w ^ 2) := by
      field_simp
      ring
    rw [harg, Real.sqrt_mul (sq_nonneg _),
      Real.sqrt_sq (le_of_lt (div_pos hrho hr))]
  rw [OCam.backProject3, hpre]
  show (x / r * ρ / norm3 (x / r * ρ, y / r * ρ, ρ * w / r),
    y / r * ρ / norm3 (x / r * ρ, y / r * ρ, ρ * w / r),
    ρ * w / r / norm3 (x / r * ρ, y / r * ρ, ρ * w / r)) = _
  rw [hn3]
  simp only [Prod.mk.injEq]
  refine ⟨?_, ?_, ?_⟩
  · field_simp
    ring
  · field_simp
    ring
  · field_simp
    ring

/-- Witness for the amended C6 on `sampleCam` at the point `(1, 0, 0)`. -/
theorem roundtrip_parallel_witness :
    (sampleCam.affine_correction_inverse.mul sampleCam.affine_correction =
        Mat2.id ∧
      0 < xyNorm 1 0 ∧
      0 < sampleCam.rho (Real.arctan (-0 / xyNorm 1 0)) ∧
      sampleCam.polyEval (sampleCam.rho (Real.arctan (-0 / xyNorm 1 0))) =
        sampleCam.rho (Real.arctan (-0 / xyNorm 1 0)) * (-0 / xyNorm 1 0)) ∧
    sampleCam.backProject3 ((sampleCam.project3 (1, 0, 0)).1) =
      (1 / norm3 (1, 0, 0), 0 / norm3 (1, 0, 0), 0 / norm3 (1, 0, 0)) := by
  have hA : sampleCam.affine_correction_inverse.mul
      sampleCam.affine_correction = Mat2.id := by
    norm_num [sampleCam, OCam.ofParams, distortionToAffineCorrection,
      Mat2.inv, Mat2.det, Mat2.mul, Mat2.id, Mat2.mk.injEq]
  have hr : 0 < xyNorm 1 0 := by
    rw [xyNorm, show ((1 : ℝ) ^ 2 + 0 ^ 2) = 1 by norm_num, Real.sqrt_one]
    norm_num
  have hrho : 0 < sampleCam.rho (Real.arctan (-0 / xyNorm 1 0)) := by
    have h1 : sampleCam.rho (Real.arctan (-0 / xyNorm 1 0)) = 1 := by
      simp [OCam.rho, sampleCam, OCam.ofParams, ite_mul, Finset.sum_ite_eq',
        thetaPowers]
    rw [h1]
    norm_num
  have hcons : sampleCam.polyEval (sampleCam.rho (Real.arctan (-0 / xyNorm 1 0))) =
      sampleCam.rho (Real.arctan (-0 / xyNorm 1 0)) * (-0 / xyNorm 1 0) := by
    simp [OCam.polyEval, sampleCam, OCam.ofParams]
  exact ⟨⟨hA, hr, hrho, hcons⟩,
    roundtrip_parallel sampleCam 1 0 0 hA hr hrho hcons⟩

/-- Applying `lin3` is the row–vector dot product. -/
theorem lin3_apply (a b c : ℝ) (v : ℝ × ℝ × ℝ) :
    lin3 a b c v = a * v.1 + b * v.2.1 + c * v.2.2 := by
  simp [lin3, px, py, pz]

/-- Quotient rule for real-valued maps on a normed space, stated in the
closed form used by the Jacobian verification. -/
theorem hasFDerivAt_quot {E : Type} [NormedAddCommGroup E] [NormedSpace ℝ E]
    {c d : E → ℝ} {c' d' : E →L[ℝ] ℝ} {p : E}
    (hc : HasFDerivAt c c' p) (hd : HasFDerivAt d d' p) (hne : d p ≠ 0) :
    HasFDerivAt (fun q => c q / d q)
      ((d p)⁻¹ • c' - (c p / d p ^ 2) • d') p := by
  have h1 : HasFDerivAt (fun q => (d q)⁻¹) ((-(d p ^ 2)⁻¹) • d') p :=
    (hasDerivAt_inv hne).comp_hasFDerivAt p hd
  have h2 := hc.mul h1
  have h3 : HasFDerivAt (fun q => c q / d q)
      (c p • ((-(d p ^ 2)⁻¹) • d') + (d p)⁻¹ • c') p := by
    simpa only [div_eq_mul_inv] using h2
  refine h3.congr_fderiv ?_
  ext v
  simp only [ContinuousLinearMap.add_apply, ContinuousLinearMap.smul_apply,
    ContinuousLinearMap.sub_apply, smul_eq_mul]
  ring

/-- Applying the coordinate projections. -/
theorem px_apply (v : ℝ × ℝ × ℝ) : px v = v.1 := rfl

/-- Applying the coordinate projections. -/
theorem py_apply (v : ℝ × ℝ × ℝ) : py v = v.2.1 := rfl

/-- Applying the coordinate projections. -/
theorem pz_apply (v : ℝ × ℝ × ℝ) : pz v = v.2.2 := rfl

set_option maxHeartbeats 1600000 in
/-- C3: at every point with `xyNorm > 0`, the 2×3 matrix produced by
`project3` is the Fréchet derivative of the keypoint map `p ↦
project3(p).keypoint` — the claim's "true mathematical derivative",
in exact real arithmetic. -/
theorem project3_jacobian_is_derivative (cam : OCam) (p : ℝ × ℝ × ℝ)
    (h : 0 < xyNorm p.1 p.2.1) :
    HasFDerivAt (fun q => (cam.project3 q).1)
      (Mat23.toCLM (cam.project3 p).2) p := by
  obtain ⟨x, y, w⟩ := p
  have hS : 0 < Real.sqrt (x ^ 2 + y ^ 2) := h
  have hSne : Real.sqrt (x ^ 2 + y ^ 2) ≠ 0 := ne_of_gt hS
  have hs0 : (0 : ℝ) ≤ x ^ 2 + y ^ 2 := by positivity
  have hr2 : Real.sqrt (x ^ 2 + y ^ 2) ^ 2 = x ^ 2 + y ^ 2 := Real.sq_sqrt hs0
  have hq1 : (0 : ℝ) < Real.sqrt (x ^ 2 + y ^ 2) ^ 2 + w ^ 2 := by
    nlinarith [pow_pos hS 2, sq_nonneg w]
  have hq1ne : Real.sqrt (x ^ 2 + y ^ 2) ^ 2 + w ^ 2 ≠ 0 := ne_of_gt hq1
  have hq2 : (1 : ℝ) + (-w / Real.sqrt (x ^ 2 + y ^ 2)) ^ 2 ≠ 0 := by positivity
  have hsumne : x ^ 2 + y ^ 2 ≠ 0 := by
    intro h0
    rw [h0, Real.sqrt_zero] at hS
    exact lt_irrefl 0 hS
  have hfx : HasFDerivAt (fun q : ℝ × ℝ × ℝ => q.1) px (x, y, w) :=
    hasFDerivAt_fst
  have hfy : HasFDerivAt (fun q : ℝ × ℝ × ℝ => q.2.1) py (x, y, w) :=
    hasFDerivAt_fst.comp _ hasFDerivAt_snd
  have hfw : HasFDerivAt (fun q : ℝ × ℝ × ℝ => q.2.2) pz (x, y, w) :=
    hasFDerivAt_snd.comp _ hasFDerivAt_snd
  have hsum' : HasFDerivAt (fun q : ℝ × ℝ × ℝ => q.1 ^ 2 + q.2.1 ^ 2)
      (lin3 (2 * x) (2 * y) 0) (x, y, w) := by
    refine (((hasDerivAt_pow 2 x).comp_hasFDerivAt (x, y, w) hfx).add
      ((hasDerivAt_pow 2 y).comp_hasFDerivAt (x, y, w) hfy)).congr_fderiv ?_
    refine ContinuousLinearMap.ext fun v => ?_
    simp only [ContinuousLinearMap.add_apply, ContinuousLinearMap.smul_apply,
      lin3_apply, px_apply, py_apply, pz_apply, smul_eq_mul]
    push_cast
    ring_nf
  have hsqrt' : HasFDerivAt
      (fun q : ℝ × ℝ × ℝ => Real.sqrt (q.1 ^ 2 + q.2.1 ^ 2))
      (lin3 (x / Real.sqrt (x ^ 2 + y ^ 2)) (y / Real.sqrt (x ^ 2 + y ^ 2)) 0)
      (x, y, w) := by
    refine ((Real.hasDerivAt_sqrt hsumne).comp_hasFDerivAt (x, y, w)
      hsum').congr_fderiv ?_
    refine ContinuousLinearMap.ext fun v => ?_
    simp only [ContinuousLinearMap.smul_apply, lin3_apply, smul_eq_mul]
    field_simp
    ring
  have hzdiv' : HasFDerivAt
      (fun q : ℝ × ℝ × ℝ => -q.2.2 / Real.sqrt (q.1 ^ 2 + q.2.1 ^ 2))
      (lin3 (w * x / Real.sqrt (x ^ 2 + y ^ 2) ^ 3)
        (w * y / Real.sqrt (x ^ 2 + y ^ 2) ^ 3)
        (-(1 / Real.sqrt (x ^ 2 + y ^ 2)))) (x, y, w) := by
    refine (hasFDerivAt_quot hfw.neg hsqrt' hSne).congr_fderiv ?_
    refine ContinuousLinearMap.ext fun v => ?_
    simp only [ContinuousLinearMap.sub_apply, ContinuousLinearMap.smul_apply,
      ContinuousLinearMap.neg_apply, lin3_apply, px_apply, py_apply, pz_apply,
      smul_eq_mul]
    generalize hg : Real.sqrt (x ^ 2 + y ^ 2) = s
    have hs' : (0 : ℝ) < s := hg ▸ hS
    have hsne' : s ≠ 0 := ne_of_gt hs'
    field_simp
    ring
  have htheta' : HasFDerivAt
      (fun q : ℝ × ℝ × ℝ =>
        Real.arctan (-q.2.2 / Real.sqrt (q.1 ^ 2 + q.2.1 ^ 2)))
      (lin3 (w * x / (Real.sqrt (x ^ 2 + y ^ 2) *
          (Real.sqrt (x ^ 2 + y ^ 2) ^ 2 + w ^ 2)))
        (w * y / (Real.sqrt (x ^ 2 + y ^ 2) *
          (Real.sqrt (x ^ 2 + y ^ 2) ^ 2 + w ^ 2)))
        (-(Real.sqrt (x ^ 2 + y ^ 2) /
          (Real.sqrt (x ^ 2 + y ^ 2) ^ 2 + w ^ 2)))) (x, y, w) := by
    refine ((Real.hasDerivAt_arctan (-w / Real.sqrt (x ^ 2 + y ^ 2))).comp_hasFDerivAt
      (x, y, w) hzdiv').congr_fderiv ?_
    refine ContinuousLinearMap.ext fun v => ?_
    simp only [ContinuousLinearMap.smul_apply, lin3_apply, smul_eq_mul]
    generalize hg : Real.sqrt (x ^ 2 + y ^ 2) = s
    have hs' : (0 : ℝ) < s := hg ▸ hS
    have hsne' : s ≠ 0 := ne_of_gt hs'
    have hq1' : (0 : ℝ) < s ^ 2 + w ^ 2 := by
      nlinarith [pow_pos hs' 2, sq_nonneg w]
    have hq1ne' : s ^ 2 + w ^ 2 ≠ 0 := ne_of_gt hq1'
    have hq2' : (1 : ℝ) + (-w / s) ^ 2 ≠ 0 := by positivity
    field_simp
    ring
  have hpolyD : HasDerivAt cam.rho
      (∑ i : Fin 12, cam.inverse_polynomial i *
        ((i : ℕ) * Real.arctan (-w / Real.sqrt (x ^ 2 + y ^ 2)) ^ ((i : ℕ) - 1)))
      (Real.arctan (-w / Real.sqrt (x ^ 2 + y ^ 2))) := by
    have hrho_eq : cam.rho =
        fun t => ∑ i : Fin 12, cam.inverse_polynomial i * t ^ (i : ℕ) := by
      funext t
      rw [OCam.rho]
      exact Finset.sum_congr rfl fun i _ => by rw [thetaPowers_eq_pow]
    rw [hrho_eq]
    exact HasDerivAt.sum fun i _ =>
      HasDerivAt.const_mul (cam.inverse_polynomial i) (hasDerivAt_pow (i : ℕ) _)
  have hrhoq' : HasFDerivAt
      (fun q : ℝ × ℝ × ℝ =>
        cam.rho (Real.arctan (-q.2.2 / Real.sqrt (q.1 ^ 2 + q.2.1 ^ 2))))
      (lin3 ((∑ i : Fin 12, cam.inverse_polynomial i *
          ((i : ℕ) * Real.arctan (-w / Real.sqrt (x ^ 2 + y ^ 2)) ^ ((i : ℕ) - 1))) *
          (w * x / (Real.sqrt (x ^ 2 + y ^ 2) *
            (Real.sqrt (x ^ 2 + y ^ 2) ^ 2 + w ^ 2))))
        ((∑ i : Fin 12, cam.inverse_polynomial i *
          ((i : ℕ) * Real.arctan (-w / Real.sqrt (x ^ 2 + y ^ 2)) ^ ((i : ℕ) - 1))) *
          (w * y / (Real.sqrt (x ^ 2 + y ^ 2) *
            (Real.sqrt (x ^ 2 + y ^ 2) ^ 2 + w ^ 2))))
        ((∑ i : Fin 12, cam.inverse_polynomial i *
          ((i : ℕ) * Real.arctan (-w / Real.sqrt (x ^ 2 + y ^ 2)) ^ ((i : ℕ) - 1))) *
          -(Real.sqrt (x ^ 2 + y ^ 2) /
            (Real.sqrt (x ^ 2 + y ^ 2) ^ 2 + w ^ 2)))) (x, y, w) := by
    refine (hpolyD.comp_hasFDerivAt (x, y, w) htheta').congr_fderiv ?_
    refine ContinuousLinearMap.ext fun v => ?_
    simp only [ContinuousLinearMap.smul_apply, lin3_apply, smul_eq_mul]
    ring
  have hxdiv' : HasFDerivAt
      (fun q : ℝ × ℝ × ℝ => q.1 / Real.sqrt (q.1 ^ 2 + q.2.1 ^ 2))
      (lin3 (1 / Real.sqrt (x ^ 2 + y ^ 2) - x ^ 2 / Real.sqrt (x ^ 2 + y ^ 2) ^ 3)
        (-(x * y) / Real.sqrt (x ^ 2 + y ^ 2) ^ 3) 0) (x, y, w) := by
    refine (hasFDerivAt_quot hfx hsqrt' hSne).congr_fderiv ?_
    refine ContinuousLinearMap.ext fun v => ?_
    simp only [ContinuousLinearMap.sub_apply, ContinuousLinearMap.smul_apply,
      lin3_apply, px_apply, py_apply, pz_apply, smul_eq_mul]
    generalize hg : Real.sqrt (x ^ 2 + y ^ 2) = s
    have hs' : (0 : ℝ) < s := hg ▸ hS
    have hsne' : s ≠ 0 := ne_of_gt hs'
    field_simp
    ring
  have hydiv' : HasFDerivAt
      (fun q : ℝ × ℝ × ℝ => q.2.1 / Real.sqrt (q.1 ^ 2 + q.2.1 ^ 2))
      (lin3 (-(x * y) / Real.sqrt (x ^ 2 + y ^ 2) ^ 3)
        (1 / Real.sqrt (x ^ 2 + y ^ 2) - y ^ 2 / Real.sqrt (x ^ 2 + y ^ 2) ^ 3)
        0) (x, y, w) := by
    refine (hasFDerivAt_quot hfy hsqrt' hSne).congr_fderiv ?_
    refine ContinuousLinearMap.ext fun v => ?_
    simp only [ContinuousLinearMap.sub_apply, ContinuousLinearMap.smul_apply,
      lin3_apply, px_apply, py_apply, pz_apply, smul_eq_mul]
    generalize hg : Real.sqrt (x ^ 2 + y ^ 2) = s
    have hs' : (0 : ℝ) < s := hg ▸ hS
    have hsne' : s ≠ 0 := ne_of_gt hs'
    field_simp
    ring
  have hu := hxdiv'.mul hrhoq'
  have hv := hydiv'.mul hrhoq'
  have hk1 := ((hu.const_mul cam.affine_correction.m00).add
    (hv.const_mul cam.affine_correction.m01)).add_const cam.principal_point.1
  have hk2 := ((hu.const_mul cam.affine_correction.m10).add
    (hv.const_mul cam.affine_correction.m11)).add_const cam.principal_point.2
  have hK := hk1.prod hk2
  refine hK.congr_fderiv ?_
  have hDsum : cam.drhoDtheta (Real.arctan (-w / Real.sqrt (x ^ 2 + y ^ 2))) =
      ∑ i : Fin 12, cam.inverse_polynomial i *
        ((i : ℕ) * Real.arctan (-w / Real.sqrt (x ^ 2 + y ^ 2)) ^ ((i : ℕ) - 1)) := by
    rw [OCam.drhoDtheta]
    exact Finset.sum_congr rfl fun i _ => by rw [thetaPowers_eq_pow]; ring
  refine ContinuousLinearMap.ext fun v => ?_
  obtain ⟨v1, v2, v3⟩ := v
  simp only [OCam.project3, Mat2.mulMat23, Mat23.toCLM,
    dthetaDx, dthetaDy, dthetaDz, xyNorm, hDsum, lin3_apply,
    ContinuousLinearMap.prod_apply, ContinuousLinearMap.add_apply,
    ContinuousLinearMap.smul_apply, smul_eq_mul, Prod.mk.injEq, neg_sq]
  generalize hg : Real.sqrt (x ^ 2 + y ^ 2) = s
  have hs' : (0 : ℝ) < s := hg ▸ hS
  have hsne' : s ≠ 0 := ne_of_gt hs'
  have hr2' : s ^ 2 = x ^ 2 + y ^ 2 := hg ▸ hr2
  have hq1' : (0 : ℝ) < s ^ 2 + w ^ 2 := by
    nlinarith [pow_pos hs' 2, sq_nonneg w]
  have hq1ne' : s ^ 2 + w ^ 2 ≠ 0 := ne_of_gt hq1'
  rw [← hr2']
  refine ⟨?_, ?_⟩
  · field_simp
    ring
  · field_simp
    ring

/-- Witness for C3 at the point `(2, 0, 1)` on `sampleCam`. -/
theorem project3_jacobian_is_derivative_witness :
    0 < xyNorm (2, 0, 1).1 (2, 0, 1).2.1 ∧
      HasFDerivAt (fun q => (sampleCam.project3 q).1)
        (Mat23.toCLM (sampleCam.project3 (2, 0, 1)).2) (2, 0, 1) := by
  have h : 0 < xyNorm (2 : ℝ) 0 := by
    rw [xyNorm, show ((2 : ℝ) ^ 2 + 0 ^ 2) = 2 ^ 2 by norm_num,
      Real.sqrt_sq (by norm_num : (0 : ℝ) ≤ 2)]
    norm_num
  exact ⟨h, project3_jacobian_is_derivative sampleCam (2, 0, 1) h⟩

end

end OmniCam
